import Mathlib

/-!
Verification of the Zylith ASP core: the incremental Merkle accumulator,
the commitment deriver, and the chain-event synchronizer.

The Rust module asp/src/merkle.rs is absent from the sources; only its
callers (main.rs, syncer.rs) and the specification describe the tree, so
the tree operations below are modelled from the spec (sections 3 and 4.2),
with the 2-to-1 hash H and the empty-leaf constant z0 kept as parameters.
All field elements are represented as natural numbers.
-/

namespace Zylith

/-- A partial map from (level, index) to a stored node value. -/
abbrev NodeMap := Nat → Nat → Option Nat

/-- Modelled from the spec: the zero cache of missing merkle.rs,
zeros 0 = z0 (the fixed empty-leaf constant) and
zeros (l+1) = H (zeros l) (zeros l). -/
def zeros (H : Nat → Nat → Nat) (z0 : Nat) : Nat → Nat
  | 0 => z0
  | l + 1 => H (zeros H z0 l) (zeros H z0 l)

/-- Modelled from the spec: the tree state of missing merkle.rs —
fixed depth, sparse node storage, leaf_count (next free index) and
the cached root. -/
structure MerkleTree where
  depth : Nat
  nodes : NodeMap
  leaf_count : Nat
  root : Nat

/-- Point update of the sparse node storage. -/
def setNode (m : NodeMap) (l i v : Nat) : NodeMap :=
  fun l' i' => if l' = l ∧ i' = i then some v else m l' i'

/-- Reading a node, substituting zeros at that level for any
not-yet-materialized node (spec section 4.2). -/
def getNode (H : Nat → Nat → Nat) (z0 : Nat) (m : NodeMap) (l i : Nat) : Nat :=
  (m l i).getD (zeros H z0 l)

/-- Modelled from the spec: the O(depth) ancestor-chain recomputation of
missing merkle.rs. Level 0 already holds the new leaf; levels 1..k are
recomputed bottom-up, each parent hashing its two children as currently
stored (with zeros substituted for missing siblings). -/
def applyUpdate (H : Nat → Nat → Nat) (z0 index : Nat) (m : NodeMap) : Nat → NodeMap
  | 0 => m
  | k + 1 =>
    let prev := applyUpdate H z0 index m k
    let ip := index / 2 ^ (k + 1)
    setNode prev (k + 1) ip
      (H (getNode H z0 prev k (2 * ip)) (getNode H z0 prev k (2 * ip + 1)))

/-- Modelled from the spec: insert_at_index of missing merkle.rs — set the
leaf at an explicit index, recompute its ancestor chain up to the root, and
set leaf_count to max leaf_count (index+1). -/
def insert_at_index (H : Nat → Nat → Nat) (z0 : Nat) (t : MerkleTree)
    (index leaf : Nat) : MerkleTree :=
  let m := applyUpdate H z0 index (setNode t.nodes 0 index leaf) t.depth
  { depth := t.depth
    nodes := m
    leaf_count := max t.leaf_count (index + 1)
    root := getNode H z0 m t.depth 0 }

/-- Error taxonomy of the tree (spec section 7). -/
inductive TreeError where
  | capacityExceeded
deriving DecidableEq

/-- Modelled from the spec: insert of missing merkle.rs — fails with
CapacityExceeded if leaf_count = 2^depth, otherwise appends at leaf_count
(incrementing it) and returns the updated tree carrying the new root. -/
def insert (H : Nat → Nat → Nat) (z0 : Nat) (t : MerkleTree)
    (leaf : Nat) : Except TreeError MerkleTree :=
  if t.leaf_count = 2 ^ t.depth then .error .capacityExceeded
  else .ok (insert_at_index H z0 t t.leaf_count leaf)

/-- Modelled from the spec: new of missing merkle.rs — empty storage,
leaf_count 0, root = zeros depth. -/
def MerkleTree.new (H : Nat → Nat → Nat) (z0 : Nat) (depth : Nat) : MerkleTree :=
  { depth := depth
    nodes := fun _ _ => none
    leaf_count := 0
    root := zeros H z0 depth }

/-- Sequential inserts of a list of leaves, stopping at the first error. -/
def insertMany (H : Nat → Nat → Nat) (z0 : Nat) (t : MerkleTree) :
    List Nat → Except TreeError MerkleTree
  | [] => .ok t
  | leaf :: rest => (insert H z0 t leaf).bind fun t' => insertMany H z0 t' rest

/-- The reference full binary hash tree of the claims: node (l+1, i) is
H of its two children, a leaf position reads from the leaf list padded
with z0. This follows the spec's recomputed-by-hand root, to be compared
with the incremental tree. -/
def refNode (H : Nat → Nat → Nat) (z0 : Nat) (L : List Nat) : Nat → Nat → Nat
  | 0, i => L.getD i z0
  | l + 1, i => H (refNode H z0 L l (2 * i)) (refNode H z0 L l (2 * i + 1))

/-- An inclusion proof as served by the ASP. -/
structure MerkleProof where
  root : Nat
  leaf : Nat
  path : List Nat
  pathIndices : List Nat

/-- Index of the sibling of node index j within its level. -/
def sibIndex (j : Nat) : Nat := if j % 2 = 0 then j + 1 else j - 1

/-- Modelled from the spec: get_proof of missing merkle.rs — None if
index is at or past leaf_count, otherwise the root, the leaf, the sibling
hashes from leaf level to root, and the left/right bit per level. -/
def get_proof (H : Nat → Nat → Nat) (z0 : Nat) (t : MerkleTree)
    (index : Nat) : Option MerkleProof :=
  if t.leaf_count ≤ index then none
  else some
    { root := t.root
      leaf := getNode H z0 t.nodes 0 index
      path := (List.range t.depth).map fun l =>
        getNode H z0 t.nodes l (sibIndex (index / 2 ^ l))
      pathIndices := (List.range t.depth).map fun l => (index / 2 ^ l) % 2 }

/-- One step of proof verification: hash the accumulator with the sibling,
on the side selected by the direction bit (0 = current node is the left
child). -/
def proofStep (H : Nat → Nat → Nat) (acc : Nat) (p : Nat × Nat) : Nat :=
  if p.2 = 0 then H acc p.1 else H p.1 acc

/-- Folding the (sibling, direction-bit) pairs against a leaf, as the
spec's proof-correctness invariant prescribes. -/
def foldProof (H : Nat → Nat → Nat) (leaf : Nat) (l : List (Nat × Nat)) : Nat :=
  l.foldl (proofStep H) leaf

/-!  Commitment deriver — embedding of asp/src/commitment.rs.  The BN254
Poseidon hash comes from an external library (light_poseidon) and is kept
as a parameter P of the functions that use it; its arguments and result
are field elements below pBN. -/

/-- The BN254 scalar-field modulus used by ark_bn254::Fr. -/
def pBN : Nat :=
  21888242871839275222246405745257275088548364400416034343698204186575808495617

/-- The 250-bit MASK constant of commitment.rs. -/
def maskVal : Nat :=
  0x3ffffffffffffffffffffffffffffffffffffffffffffffffffffffffffffff

/-- Value of a single hexadecimal digit, accepting both cases. -/
def hexDigit (c : Char) : Option Nat :=
  if '0' ≤ c ∧ c ≤ '9' then some (c.toNat - '0'.toNat)
  else if 'a' ≤ c ∧ c ≤ 'f' then some (c.toNat - 'a'.toNat + 10)
  else if 'A' ≤ c ∧ c ≤ 'F' then some (c.toNat - 'A'.toNat + 10)
  else none

/-- Embedding of num_bigint's from_str_radix with radix 16 as used in
commitment.rs: an optional leading plus sign, then a nonempty string that
must lead with a digit; after that leading position, underscore characters
are skipped as digit separators; any other character that is not a
hexadecimal digit is a parse error. -/
def hexToNat (s : List Char) : Option Nat :=
  let s' := match s with
    | '+' :: rest => rest
    | other => other
  if s' = [] then none
  else if s'.head? = some '_' then none
  else s'.foldl (fun acc c =>
    if c = '_' then acc
    else acc.bind fun a => (hexDigit c).map fun d => a * 16 + d) (some 0)

/-- Rust's trim_start_matches("0x"): remove every leading occurrence of
the two-character 0x marker. -/
def strip0x : List Char → List Char
  | '0' :: 'x' :: rest => strip0x rest
  | s => s

/-- Embedding of parse_felt_to_fr (commitment.rs lines 61-73): strip the
0x marker, parse as hexadecimal, keep the low 32 bytes (the copy into the
32-byte buffer), and reduce modulo the field order
(Fr::from_be_bytes_mod_order). -/
def parse_felt_to_fr (s : List Char) : Option Nat :=
  (hexToNat (strip0x s)).map fun v => v % 2 ^ 256 % pBN

/-- Embedding of generate_commitment (commitment.rs lines 14-41), with the
Poseidon 2-to-1 hash as parameter P:
h1 = P(secret, nullifier), h2 = P(h1, amount-as-field-element), and the
result is h2 masked to 250 bits.  The final hex rendering of the source is
omitted: the result is returned as its numeric value. -/
def generate_commitment (P : Nat → Nat → Nat) (secret nullifier : List Char)
    (amount : Nat) : Except String Nat :=
  match parse_felt_to_fr secret with
  | none => .error "Failed to parse felt252"
  | some s =>
    match parse_felt_to_fr nullifier with
    | none => .error "Failed to parse felt252"
    | some n =>
      let amountFr := amount % pBN
      let intermediate := P s n
      let result := P intermediate amountFr
      .ok (result &&& maskVal)

/-!  Event synchronizer — embedding of asp/src/syncer.rs.  The chain
provider is external: the chain head is a parameter (an Except value,
error meaning a failed block_number call), and the paginated get_events
responses for a queried block range are a parameter giving, per range, the
finite list of page results obtained by following continuation tokens, an
error entry meaning a failed get_events call at that point. -/

/-- A raw chain event as delivered by the provider: key felts and data
felts, as natural numbers. -/
structure ChainEvent where
  keys : List Nat
  data : List Nat
deriving DecidableEq

/-- Embedding of the per-event body of sync_events (syncer.rs lines
117-173): skip events whose keys are empty or whose first key is not the
Deposit selector; skip Deposit events with fewer than 3 data fields;
otherwise insert data[0] (the commitment) into the tree.  The leaf index
and asserted root in data[1], data[2] are only logged by the source and do
not affect the state; the root returned by insert is only logged.  A
CapacityExceeded failure of the modelled insert leaves the tree
unchanged. -/
def processEvent (H : Nat → Nat → Nat) (z0 sel : Nat) (t : MerkleTree)
    (e : ChainEvent) : MerkleTree :=
  if e.keys.head? ≠ some sel then t
  else if 3 ≤ e.data.length then
    match insert H z0 t (e.data.getD 0 0) with
    | .ok t' => t'
    | .error _ => t
  else t

/-- Folding the paginated get_events responses in order: each successful
page has its events applied in delivery order; a failed get_events call
stops the loop and surfaces the error (the question-mark operator in
sync_events). -/
def processPages (H : Nat → Nat → Nat) (z0 sel : Nat) (t : MerkleTree) :
    List (Except Unit (List ChainEvent)) → MerkleTree × Except Unit Unit
  | [] => (t, .ok ())
  | .error e :: _ => (t, .error e)
  | .ok evs :: rest =>
    processPages H z0 sel (evs.foldl (processEvent H z0 sel) t) rest

/-- The events of the successful pages, in delivery order. -/
def okJoin : List (Except Unit (List ChainEvent)) → List ChainEvent
  | [] => []
  | .ok evs :: rest => evs ++ okJoin rest
  | .error _ :: rest => okJoin rest

/-- Embedding of sync_events (syncer.rs lines 87-187): fetch the chain
head (propagating a provider error); if head ≤ from_block return
from_block with the tree untouched; otherwise process the paginated
events of the block range from_block+1 .. head and return head, or the
first provider error together with the partially updated tree. -/
def sync_events (H : Nat → Nat → Nat) (z0 sel : Nat) (head : Except Unit Nat)
    (pages : Nat → Nat → List (Except Unit (List ChainEvent)))
    (from_block : Nat) (t : MerkleTree) : MerkleTree × Except Unit Nat :=
  match head with
  | .error e => (t, .error e)
  | .ok latest =>
    if latest ≤ from_block then (t, .ok from_block)
    else
      match processPages H z0 sel t (pages (from_block + 1) latest) with
      | (t', .ok _) => (t', .ok latest)
      | (t', .error e) => (t', .error e)

/-- Embedding of one iteration of run (syncer.rs lines 71-84): call
sync_events with the current checkpoint; on success, persist the returned
block number only when it is strictly larger; on error, keep the
checkpoint.  The returned pair is (persisted checkpoint, tree). -/
def run_iteration (H : Nat → Nat → Nat) (z0 sel : Nat) (head : Except Unit Nat)
    (pages : Nat → Nat → List (Except Unit (List ChainEvent)))
    (st : Nat) (t : MerkleTree) : Nat × MerkleTree :=
  match sync_events H z0 sel head pages st t with
  | (t', .ok newLast) => (if st < newLast then newLast else st, t')
  | (t', .error _) => (st, t')

/-- The two writers of the persisted state file asp_state.json: the
syncer's save in run (guarded by new > old), and the force_resync endpoint
(main.rs lines 252-292), which writes the requested from_block, defaulting
to the contract deployment block 4438440. -/
inductive StateWrite where
  | syncer (newLast : Nat)
  | forceResync (from_block : Option Nat)
deriving DecidableEq

/-- The persisted last_synced_block value after a write, given the current
persisted value. -/
def applyWrite (cur : Nat) : StateWrite → Nat
  | .syncer n => if cur < n then n else cur
  | .forceResync b => b.getD 4438440

/-!  Helper lemmas about the tree model. -/

lemma refNode_nil (H : Nat → Nat → Nat) (z0 : Nat) :
    ∀ l i, refNode H z0 [] l i = zeros H z0 l
  | 0, _ => by simp [refNode, zeros]
  | l + 1, i => by
    simp only [refNode, zeros]
    rw [refNode_nil H z0 l (2 * i), refNode_nil H z0 l (2 * i + 1)]

lemma getD_append_ne (L : List Nat) (x z0 : Nat) {i : Nat} (h : i ≠ L.length) :
    (L ++ [x]).getD i z0 = L.getD i z0 := by
  rcases Nat.lt_or_ge i L.length with hlt | hge
  · exact List.getD_append L [x] z0 i hlt
  · have h1 : L.length < i := lt_of_le_of_ne hge (Ne.symm h)
    rw [List.getD_eq_default _ _ hge, List.getD_append_right _ _ _ _ hge]
    exact List.getD_eq_default _ _ (by simp; omega)

lemma getD_append_len (L : List Nat) (x z0 : Nat) :
    (L ++ [x]).getD L.length z0 = x := by
  rw [List.getD_append_right _ _ _ _ (Nat.le_refl _)]
  simp

/-- Appending one leaf only changes the reference nodes on the ancestor
path of the appended position. -/
lemma refNode_append_off (H : Nat → Nat → Nat) (z0 : Nat) (L : List Nat) (x : Nat) :
    ∀ l i, i ≠ L.length / 2 ^ l →
      refNode H z0 (L ++ [x]) l i = refNode H z0 L l i
  | 0, i, h => by
    simp only [refNode]
    exact getD_append_ne L x z0 (by simpa using h)
  | l + 1, i, h => by
    have hdd : L.length / 2 ^ l / 2 = L.length / 2 ^ (l + 1) := by
      rw [Nat.div_div_eq_div_mul, pow_succ]
    have h1 : 2 * i ≠ L.length / 2 ^ l := by
      intro he
      apply h
      rw [← hdd, ← he]
      omega
    have h2 : 2 * i + 1 ≠ L.length / 2 ^ l := by
      intro he
      apply h
      rw [← hdd, ← he]
      omega
    simp only [refNode]
    rw [refNode_append_off H z0 L x l (2 * i) h1,
      refNode_append_off H z0 L x l (2 * i + 1) h2]

/-- The ancestor-chain update touches no position outside the chain. -/
lemma applyUpdate_off (H : Nat → Nat → Nat) (z0 index : Nat) (m : NodeMap) :
    ∀ k l i, (l = 0 ∨ k < l ∨ i ≠ index / 2 ^ l) →
      applyUpdate H z0 index m k l i = m l i
  | 0, _, _, _ => rfl
  | k + 1, l, i, h => by
    simp only [applyUpdate, setNode]
    split
    · rename_i hc
      obtain ⟨rfl, hceq⟩ := hc
      rcases h with h0 | hk | hi
      · omega
      · omega
      · exact absurd hceq hi
    · refine applyUpdate_off H z0 index m k l i ?_
      rcases h with h0 | hk | hi
      · exact Or.inl h0
      · exact Or.inr (Or.inl (by omega))
      · exact Or.inr (Or.inr hi)

/-- After setting the appended leaf and recomputing the chain up to level
k, every node at level at most k reads as the reference node of the
extended leaf list. -/
lemma applyUpdate_ref (H : Nat → Nat → Nat) (z0 : Nat) (L : List Nat) (x : Nat)
    (t : MerkleTree)
    (hinv : ∀ l i, l ≤ t.depth → getNode H z0 t.nodes l i = refNode H z0 L l i) :
    ∀ k, k ≤ t.depth → ∀ l i, l ≤ k →
      getNode H z0 (applyUpdate H z0 L.length (setNode t.nodes 0 L.length x) k) l i
        = refNode H z0 (L ++ [x]) l i
  | 0, hk, l, i, hl => by
    interval_cases l
    simp only [applyUpdate, getNode, setNode]
    by_cases hi : i = L.length
    · subst hi
      simp [refNode, getD_append_len]
    · rw [if_neg (by simp [hi])]
      have := hinv 0 i (Nat.zero_le _)
      simp only [getNode] at this
      rw [this]
      simp only [refNode]
      rw [getD_append_ne L x z0 hi]
  | k + 1, hk, l, i, hl => by
    have hk' : k ≤ t.depth := Nat.le_of_succ_le hk
    simp only [applyUpdate, getNode, setNode]
    split
    · rename_i hc
      obtain ⟨rfl, rfl⟩ := hc
      simp only [Option.getD_some, refNode]
      have hL := applyUpdate_ref H z0 L x t hinv k hk' k
        (2 * (L.length / 2 ^ (k + 1))) (Nat.le_refl _)
      have hR := applyUpdate_ref H z0 L x t hinv k hk' k
        (2 * (L.length / 2 ^ (k + 1)) + 1) (Nat.le_refl _)
      simp only [getNode] at hL hR
      rw [hL, hR]
    · rename_i hc
      rcases Nat.lt_or_ge l (k + 1) with hlt | hge
      · have := applyUpdate_ref H z0 L x t hinv k hk' l i (Nat.lt_succ_iff.mp hlt)
        simp only [getNode] at this
        exact this
      · have hleq : l = k + 1 := Nat.le_antisymm hl hge
        subst hleq
        have hi : i ≠ L.length / 2 ^ (k + 1) := fun he => hc ⟨rfl, he⟩
        rw [applyUpdate_off H z0 L.length _ k (k + 1) i (Or.inr (Or.inl (Nat.lt_succ_self k)))]
        rw [show setNode t.nodes 0 L.length x (k + 1) i = t.nodes (k + 1) i from
          if_neg (by simp)]
        have := hinv (k + 1) i hk
        simp only [getNode] at this
        rw [this, refNode_append_off H z0 L x (k + 1) i hi]

/-- A successful insert extends the reference correspondence by one
appended leaf. -/
lemma insert_ok_ref (H : Nat → Nat → Nat) (z0 : Nat) (L : List Nat) (x : Nat)
    (t t' : MerkleTree) (hok : insert H z0 t x = .ok t')
    (hcount : t.leaf_count = L.length)
    (hinv : ∀ l i, l ≤ t.depth → getNode H z0 t.nodes l i = refNode H z0 L l i) :
    t'.depth = t.depth ∧ t'.leaf_count = L.length + 1 ∧
    t.leaf_count ≠ 2 ^ t.depth ∧
    t'.root = refNode H z0 (L ++ [x]) t.depth 0 ∧
    (∀ l i, l ≤ t.depth → getNode H z0 t'.nodes l i = refNode H z0 (L ++ [x]) l i) := by
  rw [insert] at hok
  split at hok
  · exact absurd hok (by intro h; cases h)
  · rename_i hcap
    have ht' : t' = insert_at_index H z0 t t.leaf_count x := by
      cases hok
      rfl
    subst ht'
    refine ⟨rfl, ?_, hcap, ?_, ?_⟩
    · simp only [insert_at_index]
      rw [hcount]
      omega
    · simp only [insert_at_index]
      rw [hcount]
      exact applyUpdate_ref H z0 L x t hinv t.depth (Nat.le_refl _) t.depth 0
        (Nat.le_refl _)
    · intro l i hl
      simp only [insert_at_index]
      rw [hcount]
      exact applyUpdate_ref H z0 L x t hinv t.depth (Nat.le_refl _) l i hl

/-- Sequential inserts preserve the reference correspondence for the
whole accumulated leaf list. -/
lemma insertMany_ok_ref (H : Nat → Nat → Nat) (z0 : Nat) (D : Nat) :
    ∀ (rest P : List Nat) (t t' : MerkleTree),
      insertMany H z0 t rest = .ok t' →
      t.depth = D → t.leaf_count = P.length → t.leaf_count ≤ 2 ^ D →
      t.root = refNode H z0 P D 0 →
      (∀ l i, l ≤ D → getNode H z0 t.nodes l i = refNode H z0 P l i) →
      t'.depth = D ∧ t'.leaf_count = P.length + rest.length ∧
      t'.leaf_count ≤ 2 ^ D ∧ t'.root = refNode H z0 (P ++ rest) D 0 ∧
      (∀ l i, l ≤ D → getNode H z0 t'.nodes l i = refNode H z0 (P ++ rest) l i)
  | [], P, t, t', hok, hd, hc, hcap, hroot, hinv => by
    have ht : t' = t := by
      cases hok
      rfl
    subst ht
    simpa using ⟨hd, hc, hcap, hroot, hinv⟩
  | x :: rest, P, t, t', hok, hd, hc, hcap, hroot, hinv => by
    rw [insertMany] at hok
    cases hins : insert H z0 t x with
    | error e => rw [hins] at hok; cases hok
    | ok t₁ =>
      rw [hins] at hok
      simp only [Except.bind] at hok
      subst hd
      obtain ⟨hd₁, hc₁, hne, hroot₁, hinv₁⟩ := insert_ok_ref H z0 P x t t₁ hins hc hinv
      have hcap₁ : t₁.leaf_count ≤ 2 ^ t.depth := by
        rw [hc₁]
        rw [hc] at hcap hne
        omega
      have hrec := insertMany_ok_ref H z0 t.depth rest (P ++ [x]) t₁ t' hok hd₁
        (by simpa using hc₁) hcap₁ hroot₁ hinv₁
      obtain ⟨a, b, c, d, e⟩ := hrec
      refine ⟨a, ?_, c, ?_, ?_⟩
      · simp only [List.length_append, List.length_cons, List.length_nil] at b ⊢
        omega
      · simpa [List.append_assoc] using d
      · intro l i hl
        simpa [List.append_assoc] using e l i hl

/-- The fresh tree satisfies the correspondence for the empty leaf list. -/
lemma new_ref (H : Nat → Nat → Nat) (z0 D : Nat) :
    ∀ l i, l ≤ D → getNode H z0 (MerkleTree.new H z0 D).nodes l i = refNode H z0 [] l i :=
  fun l i _ => by simp [MerkleTree.new, getNode, refNode_nil]

/-- Within capacity, sequential inserts never fail. -/
lemma insertMany_total (H : Nat → Nat → Nat) (z0 D : Nat) :
    ∀ (rest : List Nat) (t : MerkleTree),
      t.depth = D → t.leaf_count + rest.length ≤ 2 ^ D →
      ∃ t', insertMany H z0 t rest = .ok t'
  | [], t, _, _ => ⟨t, rfl⟩
  | x :: rest, t, hd, hcap => by
    subst hd
    have hne : t.leaf_count ≠ 2 ^ t.depth := by
      simp only [List.length_cons] at hcap
      omega
    have hins : insert H z0 t x = .ok (insert_at_index H z0 t t.leaf_count x) := by
      rw [insert, if_neg hne]
    obtain ⟨t', hrest⟩ := insertMany_total H z0 t.depth rest
      (insert_at_index H z0 t t.leaf_count x) rfl
      (by
        simp only [insert_at_index, List.length_cons] at hcap ⊢
        omega)
    exact ⟨t', by rw [insertMany, hins]; simpa [Except.bind] using hrest⟩

/-- Folding the reference siblings with the direction bits climbs the
reference tree one level per step. -/
lemma foldProof_ref (H : Nat → Nat → Nat) (z0 : Nat) (L : List Nat) (i : Nat) :
    ∀ n, foldProof H (refNode H z0 L 0 i)
      ((List.range n).map fun l =>
        (refNode H z0 L l (sibIndex (i / 2 ^ l)), i / 2 ^ l % 2))
      = refNode H z0 L n (i / 2 ^ n)
  | 0 => by simp [foldProof]
  | n + 1 => by
    have ih := foldProof_ref H z0 L i n
    rw [List.range_succ, List.map_append]
    simp only [foldProof] at ih ⊢
    rw [List.foldl_append]
    rw [ih]
    have hdd : i / 2 ^ n / 2 = i / 2 ^ (n + 1) := by
      rw [Nat.div_div_eq_div_mul, pow_succ]
    simp only [List.map_cons, List.map_nil, List.foldl_cons, List.foldl_nil, proofStep,
      sibIndex]
    rcases Nat.mod_two_eq_zero_or_one (i / 2 ^ n) with hp | hp
    · rw [if_pos hp, if_pos hp]
      have h2 : 2 * (i / 2 ^ (n + 1)) = i / 2 ^ n := by
        rw [← hdd]
        omega
      simp only [refNode]
      rw [h2]
    · rw [if_neg (by omega), if_neg (by omega)]
      have h2 : 2 * (i / 2 ^ (n + 1)) = i / 2 ^ n - 1 := by
        rw [← hdd]
        omega
      simp only [refNode]
      rw [h2, show i / 2 ^ n - 1 + 1 = i / 2 ^ n from by omega]

/-!  Helper lemmas about the synchronizer model. -/

/-- When every page fetch succeeds, the pagination loop applies all events
of all pages, in order, and reports success. -/
lemma processPages_allOk (H : Nat → Nat → Nat) (z0 sel : Nat) :
    ∀ (pages : List (Except Unit (List ChainEvent))) (t : MerkleTree),
      (∀ p ∈ pages, ∃ evs, p = .ok evs) →
      processPages H z0 sel t pages
        = ((okJoin pages).foldl (processEvent H z0 sel) t, .ok ())
  | [], t, _ => rfl
  | .error e :: _, _, hall => by
    obtain ⟨evs, hevs⟩ := hall (.error e) (List.mem_cons_self _ _)
    cases hevs
  | .ok evs :: rest, t, hall => by
    simp only [processPages, okJoin, List.foldl_append]
    exact processPages_allOk H z0 sel rest _ fun p hp =>
      hall p (List.mem_cons_of_mem _ hp)

/-- A failed page fetch stops the loop: the events of the earlier
successful pages stay applied and the error surfaces. -/
lemma processPages_firstError (H : Nat → Nat → Nat) (z0 sel : Nat) :
    ∀ (pre : List (Except Unit (List ChainEvent)))
      (post : List (Except Unit (List ChainEvent))) (t : MerkleTree),
      (∀ p ∈ pre, ∃ evs, p = .ok evs) →
      processPages H z0 sel t (pre ++ .error () :: post)
        = ((okJoin pre).foldl (processEvent H z0 sel) t, .error ())
  | [], _, t, _ => rfl
  | .error e :: _, _, _, hall => by
    obtain ⟨evs, hevs⟩ := hall (.error e) (List.mem_cons_self _ _)
    cases hevs
  | .ok evs :: pre, post, t, hall => by
    simp only [processPages, okJoin, List.foldl_append, List.cons_append]
    exact processPages_firstError H z0 sel pre post _ fun p hp =>
      hall p (List.mem_cons_of_mem _ hp)

/-- If any page fetch fails, the pagination loop reports an error. -/
lemma processPages_error_of_mem (H : Nat → Nat → Nat) (z0 sel : Nat) :
    ∀ (pages : List (Except Unit (List ChainEvent))) (t : MerkleTree),
      (Except.error () ∈ pages) →
      (processPages H z0 sel t pages).2 = .error ()
  | [], _, hmem => absurd hmem (List.not_mem_nil _)
  | .error () :: _, _, _ => rfl
  | .ok evs :: rest, t, hmem => by
    have : Except.error () ∈ rest := by
      rcases List.mem_cons.mp hmem with h | h
      · cases h
      · exact h
    simp only [processPages]
    exact processPages_error_of_mem H z0 sel rest _ this

/-!  Concrete instances used to exhibit witnesses and counterexamples. -/

/-- A concrete, easily evaluated 2-to-1 hash used for witnesses. -/
def hConc : Nat → Nat → Nat := fun a b => 1000 * a + b + 7

/-- A concrete well-formed Deposit event (selector 7, commitment 5,
leaf index 0, asserted root 9). -/
def evConc : ChainEvent := ⟨[7], [5, 0, 9]⟩

/-!  Claims. -/

/-- C1: the claim states that re-applying an already-applied event after a
crash/restart is a no-op in effect (same resulting root).  The code is
wrong: sync_events applies every replayed event through the appending
insert (syncer.rs line 154), not insert_at_index, so re-applying the same
event appends a duplicate leaf — leaf_count grows and the root changes.
This theorem evaluates the embedded event handler at the failing input:
a fresh depth-2 tree receiving the same Deposit event twice ends with
leaf_count 2 and a root different from the single application. -/
theorem syncer_replay_changes_root_C1 :
    (processEvent hConc 0 7 (processEvent hConc 0 7 (MerkleTree.new hConc 0 2) evConc)
        evConc).root
      ≠ (processEvent hConc 0 7 (MerkleTree.new hConc 0 2) evConc).root ∧
    (processEvent hConc 0 7 (processEvent hConc 0 7 (MerkleTree.new hConc 0 2) evConc)
        evConc).leaf_count = 2 ∧
    (processEvent hConc 0 7 (MerkleTree.new hConc 0 2) evConc).leaf_count = 1 := by
  decide

/-- C2: after inserting N leaves (N within capacity) into a fresh depth-D
tree, leaf_count is N and the root equals the root of the full binary hash
tree over those leaves padded with zeros 0; in particular a depth-2 tree
holding leaves A, B has root H (H A B) (H z0 z0). -/
theorem sequential_inserts_root_C2 (H : Nat → Nat → Nat) (z0 D : Nat) (L : List Nat)
    (hcap : L.length ≤ 2 ^ D) :
    (∃ t, insertMany H z0 (MerkleTree.new H z0 D) L = .ok t ∧
      t.leaf_count = L.length ∧ t.root = refNode H z0 L D 0) ∧
    ∀ A B : Nat, ∃ t, insertMany H z0 (MerkleTree.new H z0 2) [A, B] = .ok t ∧
      t.root = H (H A B) (H z0 z0) := by
  have main : ∀ (D' : Nat) (L' : List Nat), L'.length ≤ 2 ^ D' →
      ∃ t, insertMany H z0 (MerkleTree.new H z0 D') L' = .ok t ∧
        t.leaf_count = L'.length ∧ t.root = refNode H z0 L' D' 0 := by
    intro D' L' hcap'
    obtain ⟨t, hok⟩ := insertMany_total H z0 D' L' (MerkleTree.new H z0 D') rfl
      (by simpa [MerkleTree.new] using hcap')
    obtain ⟨_, hcnt, _, hroot, _⟩ := insertMany_ok_ref H z0 D' L' []
      (MerkleTree.new H z0 D') t hok rfl (by simp [MerkleTree.new])
      (by simp [MerkleTree.new]) (by simp [MerkleTree.new, refNode_nil])
      (new_ref H z0 D')
    exact ⟨t, hok, by simpa using hcnt, by simpa using hroot⟩
  refine ⟨main D L hcap, ?_⟩
  intro A B
  obtain ⟨t, hok, _, hroot⟩ := main 2 [A, B] (by simp)
  exact ⟨t, hok, by rw [hroot]; rfl⟩

theorem sequential_inserts_root_C2_witness :
    ([10, 20] : List Nat).length ≤ 2 ^ 2 ∧
    ((∃ t, insertMany hConc 0 (MerkleTree.new hConc 0 2) [10, 20] = .ok t ∧
        t.leaf_count = ([10, 20] : List Nat).length ∧
        t.root = refNode hConc 0 [10, 20] 2 0) ∧
      ∀ A B : Nat, ∃ t, insertMany hConc 0 (MerkleTree.new hConc 0 2) [A, B] = .ok t ∧
        t.root = hConc (hConc A B) (hConc 0 0)) :=
  ⟨by decide, sequential_inserts_root_C2 hConc 0 2 [10, 20] (by decide)⟩

/-- C8: insert fails with CapacityExceeded exactly when leaf_count has
reached 2^depth; a successful insert appends the leaf at position
leaf_count, increments leaf_count, and carries the new root.  In the
embedding a failed insert returns only the error, so the tree value held
by the caller is untouched — failure never leaves a partial update. -/
theorem insert_capacity_C8 (H : Nat → Nat → Nat) (z0 : Nat) (t : MerkleTree)
    (leaf : Nat) :
    ((∃ e, insert H z0 t leaf = .error e) ↔ t.leaf_count = 2 ^ t.depth) ∧
    ∀ t', insert H z0 t leaf = .ok t' →
      t'.depth = t.depth ∧ t'.leaf_count = t.leaf_count + 1 ∧
      t'.nodes 0 t.leaf_count = some leaf ∧
      t'.root = getNode H z0 t'.nodes t.depth 0 := by
  by_cases hcap : t.leaf_count = 2 ^ t.depth
  · refine ⟨⟨fun _ => hcap, fun _ => ⟨.capacityExceeded, by rw [insert, if_pos hcap]⟩⟩, ?_⟩
    intro t' ht'
    rw [insert, if_pos hcap] at ht'
    cases ht'
  · constructor
    · constructor
      · rintro ⟨e, he⟩
        rw [insert, if_neg hcap] at he
        cases he
      · intro h
        exact absurd h hcap
    · intro t' ht'
      rw [insert, if_neg hcap] at ht'
      have ht : t' = insert_at_index H z0 t t.leaf_count leaf := by
        cases ht'
        rfl
      subst ht
      refine ⟨rfl, ?_, ?_, rfl⟩
      · simp only [insert_at_index]
        omega
      · simp only [insert_at_index]
        rw [applyUpdate_off H z0 t.leaf_count _ t.depth 0 t.leaf_count (Or.inl rfl)]
        simp [setNode]

theorem insert_capacity_C8_witness :
    ∃ t', insert hConc 0 (MerkleTree.new hConc 0 1) 5 = .ok t' ∧
      t'.depth = 1 ∧ t'.leaf_count = 1 ∧ t'.nodes 0 0 = some 5 :=
  ⟨_, rfl, by
    have h := (insert_capacity_C8 hConc 0 (MerkleTree.new hConc 0 1) 5).2 _ rfl
    exact ⟨h.1, h.2.1, h.2.2.1⟩⟩

/-- C10: an event whose first key is missing or is not the Deposit
selector, and a Deposit event with fewer than 3 data fields, is skipped:
it leaves any tree unchanged, and a range containing it folds to the same
tree as the range with it removed, the subsequent events still applied. -/
theorem skip_invalid_events_C10 (H : Nat → Nat → Nat) (z0 sel : Nat) (e : ChainEvent)
    (h : e.keys.head? ≠ some sel ∨ e.data.length < 3) :
    (∀ t, processEvent H z0 sel t e = t) ∧
    ∀ (t : MerkleTree) (pre post : List ChainEvent),
      (pre ++ e :: post).foldl (processEvent H z0 sel) t
        = (pre ++ post).foldl (processEvent H z0 sel) t := by
  have hskip : ∀ t, processEvent H z0 sel t e = t := by
    intro t
    rcases h with hk | hd
    · rw [processEvent, if_pos hk]
    · rw [processEvent]
      split
      · rfl
      · rw [if_neg (by omega)]
  refine ⟨hskip, ?_⟩
  intro t pre post
  rw [List.foldl_append, List.foldl_append, List.foldl_cons, hskip]

theorem skip_invalid_events_C10_witness :
    ((⟨[], [1, 2, 3]⟩ : ChainEvent).keys.head? ≠ some 7 ∨
      (⟨[], [1, 2, 3]⟩ : ChainEvent).data.length < 3) ∧
    ((∀ t, processEvent hConc 0 7 t ⟨[], [1, 2, 3]⟩ = t) ∧
      ∀ (t : MerkleTree) (pre post : List ChainEvent),
        (pre ++ (⟨[], [1, 2, 3]⟩ : ChainEvent) :: post).foldl (processEvent hConc 0 7) t
          = (pre ++ post).foldl (processEvent hConc 0 7) t) :=
  ⟨by decide, skip_invalid_events_C10 hConc 0 7 ⟨[], [1, 2, 3]⟩ (by decide)⟩

/-- C3: get_proof returns none exactly when the index is at or past
leaf_count (a structured absence); for every in-range index of a tree
built by sequential inserts, the returned proof carries the tree's root
and folding the leaf against the sibling path in path_indices order
reproduces that root. -/
theorem get_proof_correct_C3 (H : Nat → Nat → Nat) (z0 D : Nat) (L : List Nat)
    (t : MerkleTree) (hok : insertMany H z0 (MerkleTree.new H z0 D) L = .ok t) :
    (∀ i, get_proof H z0 t i = none ↔ t.leaf_count ≤ i) ∧
    ∀ i p, get_proof H z0 t i = some p →
      p.root = t.root ∧ foldProof H p.leaf (p.path.zip p.pathIndices) = p.root := by
  obtain ⟨hdep, hcnt, hcap, hroot, hinv⟩ := insertMany_ok_ref H z0 D L []
    (MerkleTree.new H z0 D) t hok rfl (by simp [MerkleTree.new])
    (by simp [MerkleTree.new]) (by simp [MerkleTree.new, refNode_nil]) (new_ref H z0 D)
  simp only [List.nil_append, List.length_nil, Nat.zero_add] at hcnt hroot hinv
  constructor
  · intro i
    by_cases hi : t.leaf_count ≤ i
    · rw [get_proof, if_pos hi]
      simp [hi]
    · rw [get_proof, if_neg hi]
      simp [hi]
  · intro i p hp
    rw [get_proof] at hp
    split at hp
    · cases hp
    · rename_i hi
      have hlt : i < t.leaf_count := Nat.lt_of_not_le hi
      obtain ⟨pr, pl, pp, pi⟩ := p
      injection hp with hp
      injection hp with e1 e2 e3 e4
      subst e1
      subst e2
      subst e3
      subst e4
      refine ⟨rfl, ?_⟩
      simp only
      rw [List.zip_map', hdep, hinv 0 i (Nat.zero_le _)]
      have hmap : (List.range D).map
          (fun l => (getNode H z0 t.nodes l (sibIndex (i / 2 ^ l)), i / 2 ^ l % 2))
          = (List.range D).map
          (fun l => (refNode H z0 L l (sibIndex (i / 2 ^ l)), i / 2 ^ l % 2)) := by
        refine List.map_congr_left ?_
        intro l hl
        rw [hinv l _ (le_of_lt (List.mem_range.mp hl))]
      rw [hmap, foldProof_ref H z0 L i D,
        Nat.div_eq_of_lt (lt_of_lt_of_le (hcnt ▸ hlt) hcap), ← hroot]

theorem get_proof_correct_C3_witness :
    ∃ t, insertMany hConc 0 (MerkleTree.new hConc 0 2) [10, 20] = .ok t ∧
      (∀ i, get_proof hConc 0 t i = none ↔ t.leaf_count ≤ i) ∧
      ∀ i p, get_proof hConc 0 t i = some p →
        p.root = t.root ∧ foldProof hConc p.leaf (p.path.zip p.pathIndices) = p.root :=
  ⟨_, rfl, get_proof_correct_C3 hConc 0 2 [10, 20] _ rfl⟩

/-- C4: generate_commitment computes h1 = P(secret, nullifier), then
h2 = P(h1, amount-as-field-element), and returns h2 masked to the fixed
250-bit MASK, so every successful result is below 2^250; it is a pure
function, hence deterministic. -/
theorem commitment_structure_C4 (P : Nat → Nat → Nat) (secret nullifier : List Char)
    (amount sv nv : Nat) (hs : parse_felt_to_fr secret = some sv)
    (hn : parse_felt_to_fr nullifier = some nv) :
    generate_commitment P secret nullifier amount
      = .ok (P (P sv nv) (amount % pBN) &&& maskVal) ∧
    (∀ v, generate_commitment P secret nullifier amount = .ok v → v < 2 ^ 250) ∧
    generate_commitment P secret nullifier amount
      = generate_commitment P secret nullifier amount := by
  have heq : generate_commitment P secret nullifier amount
      = .ok (P (P sv nv) (amount % pBN) &&& maskVal) := by
    simp only [generate_commitment, hs, hn]
  refine ⟨heq, ?_, rfl⟩
  intro v hv
  rw [heq] at hv
  injection hv with hv
  subst hv
  exact lt_of_le_of_lt Nat.and_le_right (by decide)

theorem commitment_structure_C4_witness :
    parse_felt_to_fr "0x01".data = some 1 ∧
    parse_felt_to_fr "0x02".data = some 2 ∧
    (generate_commitment Nat.add "0x01".data "0x02".data 5
        = .ok (Nat.add (Nat.add 1 2) (5 % pBN) &&& maskVal) ∧
      (∀ v, generate_commitment Nat.add "0x01".data "0x02".data 5 = .ok v →
        v < 2 ^ 250) ∧
      generate_commitment Nat.add "0x01".data "0x02".data 5
        = generate_commitment Nat.add "0x01".data "0x02".data 5) :=
  ⟨by decide, by decide,
    commitment_structure_C4 Nat.add "0x01".data "0x02".data 5 1 2 (by decide) (by decide)⟩

/-- C5 counterexample: the hexadecimal rendering of the BN254 modulus is
not a valid field element strictly below the prime, yet generate_commitment
accepts it — the parser reduces the value modulo the field order instead
of rejecting it — contradicting the claim that exactly such inputs fail. -/
theorem malformed_accepted_C5_cex :
    ∃ v, generate_commitment Nat.add
      "0x30644e72e131a029b85045b68181585d2833e84879b9709143e1f593f0000001".data
      "0x02".data 5 = .ok v :=
  ⟨_, rfl⟩

/-- C5 amended: generate_commitment fails exactly when the secret or the
nullifier is not parseable as a hexadecimal numeral (after stripping the
0x marker); every parseable input succeeds, with values at or above the
field prime reduced modulo 2^256 and the prime rather than rejected. -/
theorem parse_failure_iff_C5 (P : Nat → Nat → Nat) (secret nullifier : List Char)
    (amount : Nat) :
    (∃ e, generate_commitment P secret nullifier amount = .error e) ↔
      (hexToNat (strip0x secret) = none ∨ hexToNat (strip0x nullifier) = none) := by
  cases h1 : hexToNat (strip0x secret) with
  | none => simp [generate_commitment, parse_felt_to_fr, h1]
  | some a =>
    cases h2 : hexToNat (strip0x nullifier) with
    | none => simp [generate_commitment, parse_felt_to_fr, h1, h2]
    | some b => simp [generate_commitment, parse_felt_to_fr, h1, h2]

/-- C6: with checkpoint c and chain head h, an iteration with h ≤ c
fetches nothing and leaves the tree and checkpoint unchanged; with c < h
and all page fetches succeeding, exactly the paginated responses for the
block range c+1 .. h are applied, each delivered event folded exactly
once in order, and the persisted checkpoint becomes h. -/
theorem sync_range_C6 (H : Nat → Nat → Nat) (z0 sel c h : Nat)
    (pages : Nat → Nat → List (Except Unit (List ChainEvent))) (t : MerkleTree) :
    (h ≤ c → sync_events H z0 sel (.ok h) pages c t = (t, .ok c) ∧
      run_iteration H z0 sel (.ok h) pages c t = (c, t)) ∧
    (c < h → (∀ p ∈ pages (c + 1) h, ∃ evs, p = .ok evs) →
      sync_events H z0 sel (.ok h) pages c t
        = ((okJoin (pages (c + 1) h)).foldl (processEvent H z0 sel) t, .ok h) ∧
      run_iteration H z0 sel (.ok h) pages c t
        = (h, (okJoin (pages (c + 1) h)).foldl (processEvent H z0 sel) t)) := by
  constructor
  · intro hle
    have hsync : sync_events H z0 sel (.ok h) pages c t = (t, .ok c) := by
      simp only [sync_events]
      rw [if_pos hle]
    refine ⟨hsync, ?_⟩
    simp only [run_iteration]
    rw [hsync]
    simp
  · intro hlt hall
    have hsync : sync_events H z0 sel (.ok h) pages c t
        = ((okJoin (pages (c + 1) h)).foldl (processEvent H z0 sel) t, .ok h) := by
      simp only [sync_events]
      rw [if_neg (Nat.not_le.mpr hlt), processPages_allOk H z0 sel _ t hall]
    refine ⟨hsync, ?_⟩
    simp only [run_iteration]
    rw [hsync]
    simp [hlt]

/-- The paginated responses of the witness facade: a single successful
page holding one Deposit event, for every queried range. -/
def pagesConc : Nat → Nat → List (Except Unit (List ChainEvent)) :=
  fun _ _ => [.ok [evConc]]

theorem sync_range_C6_witness :
    500 < 510 ∧
    (∀ p ∈ pagesConc 501 510, ∃ evs, p = .ok evs) ∧
    (sync_events hConc 0 7 (.ok 510) pagesConc 500 (MerkleTree.new hConc 0 2)
        = ((okJoin (pagesConc 501 510)).foldl (processEvent hConc 0 7)
            (MerkleTree.new hConc 0 2), .ok 510) ∧
      run_iteration hConc 0 7 (.ok 510) pagesConc 500 (MerkleTree.new hConc 0 2)
        = (510, (okJoin (pagesConc 501 510)).foldl (processEvent hConc 0 7)
            (MerkleTree.new hConc 0 2))) := by
  have hall : ∀ p ∈ pagesConc 501 510, ∃ evs, p = .ok evs := by
    intro p hp
    simp only [pagesConc, List.mem_singleton] at hp
    exact ⟨[evConc], hp⟩
  exact ⟨by decide, hall,
    (sync_range_C6 hConc 0 7 500 510 pagesConc (MerkleTree.new hConc 0 2)).2
      (by decide) hall⟩

/-- C7: the checkpoint is persisted only after the entire scanned range
has been applied.  A failed head query keeps tree and checkpoint; a page
fetch failing mid-pagination keeps the checkpoint while the events of the
earlier successful pages stay applied (checkpoint behind reality, never
ahead); and the checkpoint can only move when every page of the scanned
range was fetched successfully. -/
theorem checkpoint_behind_C7 (H : Nat → Nat → Nat) (z0 sel c h : Nat)
    (pages : Nat → Nat → List (Except Unit (List ChainEvent))) (t : MerkleTree) :
    run_iteration H z0 sel (.error ()) pages c t = (c, t) ∧
    (∀ pre post, c < h → pages (c + 1) h = pre ++ .error () :: post →
      (∀ p ∈ pre, ∃ evs, p = .ok evs) →
      run_iteration H z0 sel (.ok h) pages c t
        = (c, (okJoin pre).foldl (processEvent H z0 sel) t)) ∧
    ((run_iteration H z0 sel (.ok h) pages c t).1 ≠ c →
      ∀ p ∈ pages (c + 1) h, ∃ evs, p = .ok evs) := by
  refine ⟨rfl, ?_, ?_⟩
  · intro pre post hlt heq hall
    simp only [run_iteration, sync_events]
    rw [if_neg (Nat.not_le.mpr hlt), heq,
      processPages_firstError H z0 sel pre post t hall]
  · intro hne pg hpg
    cases pg with
    | ok evs => exact ⟨evs, rfl⟩
    | error e =>
      cases e
      exfalso
      apply hne
      simp only [run_iteration, sync_events]
      rcases le_or_lt h c with hle | hlt
      · rw [if_pos hle]
        simp
      · rw [if_neg (Nat.not_le.mpr hlt)]
        have herr := processPages_error_of_mem H z0 sel (pages (c + 1) h) t hpg
        rcases hpp : processPages H z0 sel t (pages (c + 1) h) with ⟨t', st⟩
        rw [hpp] at herr
        cases st with
        | ok u => cases herr
        | error e' => rfl

/-- The paginated responses of a failing facade: the first page fetch of
every queried range errors. -/
def pagesFail : Nat → Nat → List (Except Unit (List ChainEvent)) :=
  fun _ _ => [.error ()]

theorem checkpoint_behind_C7_witness :
    500 < 510 ∧
    pagesFail 501 510 = [] ++ .error () :: [] ∧
    run_iteration hConc 0 7 (.ok 510) pagesFail 500 (MerkleTree.new hConc 0 2)
      = (500, (okJoin []).foldl (processEvent hConc 0 7) (MerkleTree.new hConc 0 2)) :=
  ⟨by decide, rfl,
    (checkpoint_behind_C7 hConc 0 7 500 510 pagesFail (MerkleTree.new hConc 0 2)).2.1
      [] [] (by decide) rfl (by intro p hp; exact absurd hp (List.not_mem_nil p))⟩

/-- C9 counterexample: the persisted last_synced_block is not
monotonically non-decreasing across all writers of the state file — a
force_resync request for block 100 issued while the stored checkpoint is
500 persists 100, a strictly smaller value. -/
theorem force_resync_decreases_C9_cex :
    ¬ 500 ≤ applyWrite 500 (StateWrite.forceResync (some 100)) := by decide

/-- C9 amended: the synchronizer itself never persists a smaller value —
run saves only strictly larger block numbers, so syncer writes are
monotonically non-decreasing — and resumption scans strictly after the
stored checkpoint: an iteration's outcome depends on the facade's event
responses only through the queried range cur+1 .. head.  The force_resync
endpoint, however, may rewrite the checkpoint to an arbitrary, possibly
smaller, block. -/
theorem syncer_monotone_C9 (cur n : Nat) :
    cur ≤ applyWrite cur (StateWrite.syncer n) ∧
    ∀ (H : Nat → Nat → Nat) (z0 sel h : Nat)
      (pages pages' : Nat → Nat → List (Except Unit (List ChainEvent)))
      (t : MerkleTree), pages (cur + 1) h = pages' (cur + 1) h →
      sync_events H z0 sel (.ok h) pages cur t
        = sync_events H z0 sel (.ok h) pages' cur t := by
  constructor
  · simp only [applyWrite]
    split
    · omega
    · exact Nat.le_refl cur
  · intro H z0 sel h pages pages' t hpp
    simp only [sync_events]
    rcases le_or_lt h cur with hle | hlt
    · rw [if_pos hle, if_pos hle]
    · rw [if_neg (Nat.not_le.mpr hlt), if_neg (Nat.not_le.mpr hlt), hpp]

/-- A facade differing from pagesFail outside the queried range only. -/
def pagesOther : Nat → Nat → List (Except Unit (List ChainEvent)) :=
  fun a _ => if a = 0 then [.ok []] else [.error ()]

theorem syncer_monotone_C9_witness :
    500 ≤ applyWrite 500 (StateWrite.syncer 510) ∧
    pagesOther 501 510 = pagesFail 501 510 ∧
    sync_events hConc 0 7 (.ok 510) pagesOther 500 (MerkleTree.new hConc 0 2)
      = sync_events hConc 0 7 (.ok 510) pagesFail 500 (MerkleTree.new hConc 0 2) :=
  ⟨(syncer_monotone_C9 500 510).1, rfl,
    (syncer_monotone_C9 500 510).2 hConc 0 7 510 pagesOther pagesFail
      (MerkleTree.new hConc 0 2) rfl⟩

end Zylith
